import Mathlib

/-!
# Verification of the metadata-dictionary generation pipeline

Shallow embedding of the core of `create_metadata_dictionary.ipynb`:
schema introspection (`get_fields`), the diverse-terms aggregation query
(`get_diverse_terms`), prompt construction (`generate_prompt`), JSON
extraction from the model's raw text (`extract_json`, i.e. the regex
`(\x7b(?:.|\n)*\x7d)` followed by `json.loads`), per-field processing with
its malformed-output fallback (`process_field`), and the thread-pool
fan-out (`process_index`, `generate_metadata_dictionary`).

Modelling conventions:
* Python dicts read from Elasticsearch responses are modelled by the fields
  the code actually reads (e.g. a mapping property is the optional value of
  its `type` key).
* The two external network clients are oracles: the sampler
  (`es.search` inside `get_diverse_terms`) and the generator
  (`watsonx_client.generate_text`) are function parameters returning
  `Except ε _`; an `ε` value stands for the exception (`TransportError` /
  `SchemaError`) the real client would raise.
* `json.loads` / `json.dumps` are modelled by an executable JSON parser and
  serializer over an inductive JSON value type. JSON numbers are modelled as
  integers (the pipeline never constructs fractional literals and floating
  point is out of scope); strings are serialized with the two escapes
  (`\"` and `\\`) that the serializer can emit, and the parser accepts
  exactly that subset of JSON. `json.dumps` default separators
  (comma-space and colon-space) are reproduced.
* Python's `list(set(xs))` iterates the set in an unspecified order; it is
  modelled by `List.dedup`, one fixed representative of those orders.  Every
  claim proved about it is order-insensitive.
* The `ThreadPoolExecutor` fan-out: all fields are submitted up front and
  `as_completed` yields every submitted future exactly once, in an arbitrary
  completion order; hence a run of `process_index` is parametrized by a
  completion order that is a permutation of the submitted field list.
  `future.result()` re-raises the unit's exception in the main thread, so the
  collection loop is `Except`-valued and stops at the first failed future
  (in completion order).
-/

namespace MetaDict

/-- One entry of the list returned by `get_fields`: the notebook represents it
as the dict `{"field_name": field, "data_type": dtype}`. -/
structure FieldDetail where
  field_name : String
  data_type : String
  deriving DecidableEq, Repr

/-- `get_fields` (notebook cell 3): walks `mappings.properties` of the index
mapping and produces one `FieldDetail` per property, with
` dtype = details.get('type', 'unknown')`.  A property entry is modelled by
its name together with the optional value of its `type` key. -/
def get_fields (properties : List (String × Option String)) : List FieldDetail :=
  properties.map fun p => { field_name := p.1, data_type := p.2.getD "unknown" }

/-- The aggregation-target resolution at the head of `get_diverse_terms`:
`agg_field = field + ".keyword" if data_type == "text" else field`. -/
def resolve_agg_field (field data_type : String) : String :=
  if data_type = "text" then field ++ ".keyword" else field

/-- One aggregation clause of the `get_diverse_terms` query body.  `agg_field`
is the value of the clause's `"field"` key, or `none` when the clause has no
`"field"` key (the `top_hits` clause is `{"size": 3}` only). -/
structure Aggregation where
  agg_name : String
  agg_kind : String
  agg_field : Option String
  agg_size : Option Nat
  max_doc_count : Option Nat
  deriving DecidableEq, Repr

/-- The five aggregation clauses of the single query issued by
`get_diverse_terms`, in the order they appear in the notebook's query dict. -/
def diverse_terms_aggs (field data_type : String) (size : Nat) : List Aggregation :=
  let agg_field := if data_type = "text" then field ++ ".keyword" else field
  [ { agg_name := "frequent_terms", agg_kind := "terms",
      agg_field := some agg_field, agg_size := some size, max_doc_count := none },
    { agg_name := "rare_terms", agg_kind := "rare_terms",
      agg_field := some agg_field, agg_size := none, max_doc_count := some 5 },
    { agg_name := "significant_terms", agg_kind := "significant_terms",
      agg_field := some agg_field, agg_size := some size, max_doc_count := none },
    { agg_name := "unique_count", agg_kind := "cardinality",
      agg_field := some agg_field, agg_size := none, max_doc_count := none },
    { agg_name := "sample_docs", agg_kind := "top_hits",
      agg_field := none, agg_size := some 3, max_doc_count := none } ]

/-- The dict returned by `get_diverse_terms`, with the term buckets already
projected to their `key` values (sample values are modelled as strings). -/
structure DiverseTerms where
  frequent_terms : List String
  rare_terms : List String
  significant_terms : List String
  unique_count : Nat
  sample_docs : List String
  deriving DecidableEq, Repr

/-- `combined_samples` as computed inside `process_field`:
`list(set(frequent + rare + significant))[:threshold]`.  `List.dedup` stands
for one of the unspecified set-iteration orders. -/
def combined_samples (dt : DiverseTerms) (threshold : Nat) : List String :=
  ((dt.frequent_terms ++ dt.rare_terms ++ dt.significant_terms).dedup).take threshold

/-- `SYSTEM_PROMPT` of the notebook (persona and goal of the model). -/
def SYSTEM_PROMPT : String :=
  "You are a highly knowledgeable metadata dictionary agent. " ++
  "Your mission is to help Elasticsearch admins understand their data by providing clear, concise natural language descriptions for each field."

/-- `LLM_PREFIX` of the notebook: the assistant-turn primer text. -/
def llmPrimer : String := "**Generating Metadata Dictionary in desired format:**"

/-- `USER_PROMPT_TEMPLATE.format(...)`: the user instruction with index name,
field name, data type and the comma-joined sample list substituted (the
sample list is substituted both after "Sample Values:" and as the
`sample_value` of the demanded JSON shape). -/
def user_prompt (index field data_type : String) (samples : List String) : String :=
  let samplesStr := String.intercalate ", " samples
  "Analyze the field based on the input below:\n" ++
  "- Index Name: " ++ index ++ "\n" ++
  "- Field Name: " ++ field ++ "\n" ++
  "- Data Type: " ++ data_type ++ "\n" ++
  "- Sample Values: " ++ samplesStr ++ "\n\n" ++
  "Generate a description that explains the field's purpose. " ++
  "Return the output strictly in the following JSON format (no additional text):\n\n" ++
  "json\n" ++
  "\x7b\n" ++
  "  \"field_name\": \"" ++ field ++ "\",\n" ++
  "  \"index_name\": \"" ++ index ++ "\",\n" ++
  "  \"data_type\": \"" ++ data_type ++ "\",\n" ++
  "  \"natural_language_description\": \"<your description>\",\n" ++
  "  \"sample_value\": \"" ++ samplesStr ++ "\"\n" ++
  "\x7d\n"

/-- `generate_prompt`: the Llama-3 chat template with system prompt, user
prompt and assistant primer substituted. -/
def generate_prompt (index field data_type : String) (samples : List String) : String :=
  "<|begin_of_text|><|start_header_id|>system<|end_header_id|>\n" ++
  SYSTEM_PROMPT ++
  "<|eot_id|><|start_header_id|>user<|end_header_id|>\n" ++
  user_prompt index field data_type samples ++
  "<|eot_id|><|start_header_id|>assistant<|end_header_id|>\n" ++
  llmPrimer

/-! ## JSON values, serialization (`json.dumps`) and parsing (`json.loads`) -/

mutual
/-- A JSON value (numbers restricted to integers, see the header comment). -/
inductive Json where
  | null : Json
  | bool (b : Bool) : Json
  | num (n : Int) : Json
  | str (s : String) : Json
  | arr (elems : JsonArr) : Json
  | obj (members : JsonObj) : Json
/-- The element list of a JSON array. -/
inductive JsonArr where
  | nil : JsonArr
  | cons (hd : Json) (tl : JsonArr) : JsonArr
/-- The key/value member list of a JSON object (Python parses duplicate keys
by keeping the last; the pipeline never relies on duplicates). -/
inductive JsonObj where
  | nil : JsonObj
  | cons (key : String) (val : Json) (tl : JsonObj) : JsonObj
end

/-- Build a `JsonObj` from an association list, preserving order. -/
def listToObj : List (String × Json) → JsonObj
  | [] => .nil
  | (k, v) :: rest => .cons k v (listToObj rest)

/-- First-match lookup in a `JsonObj`. -/
def objFind : JsonObj → String → Option Json
  | .nil, _ => none
  | .cons k v t, key => if k = key then some v else objFind t key

/-- Lookup of a key in a JSON value (none when not an object). -/
def jsonLookup : Json → String → Option Json
  | .obj o, key => objFind o key
  | _, _ => none

/-- The string-escaping of `json.dumps` restricted to the quote and backslash
escapes (the only ones the claims exercise). -/
def escapeChar (c : Char) : List Char :=
  if c = '"' ∨ c = '\\' then ['\\', c] else [c]

/-- Escape a whole string body. -/
def escapeChars : List Char → List Char
  | [] => []
  | c :: rest => escapeChar c ++ escapeChars rest

/-- Decimal digits (most significant first) of a natural number, as emitted
by `str(n)`. -/
def natChars (n : Nat) : List Char :=
  if n = 0 then ['0'] else ((Nat.digits 10 n).map Nat.digitChar).reverse

/-- Decimal rendering of an integer, as emitted by `str(n)` / `json.dumps`. -/
def intChars (n : Int) : List Char :=
  if n < 0 then '-' :: natChars (-n).toNat else natChars n.toNat

/-- The tail of the `null` keyword after its dispatch character. -/
def kwNull : List Char := ['u', 'l', 'l']

/-- The tail of the `true` keyword after its dispatch character. -/
def kwTrue : List Char := ['r', 'u', 'e']

/-- The tail of the `false` keyword after its dispatch character. -/
def kwFalse : List Char := ['a', 'l', 's', 'e']

mutual
/-- `json.dumps` (default separators: comma-space and colon-space). -/
def serV : Json → List Char
  | .null => 'n' :: kwNull
  | .bool true => 't' :: kwTrue
  | .bool false => 'f' :: kwFalse
  | .num n => intChars n
  | .str s => '"' :: escapeChars s.toList ++ ['"']
  | .arr .nil => ['[', ']']
  | .arr (.cons h t) => '[' :: serV h ++ serArrTail t ++ [']']
  | .obj .nil => ['\x7b', '\x7d']
  | .obj (.cons k v t) =>
      '\x7b' :: '"' :: escapeChars k.toList ++ '"' :: ':' :: ' ' :: serV v ++
        serObjTail t ++ ['\x7d']
/-- Serialization of the second and later array elements. -/
def serArrTail : JsonArr → List Char
  | .nil => []
  | .cons h t => ',' :: ' ' :: serV h ++ serArrTail t
/-- Serialization of the second and later object members. -/
def serObjTail : JsonObj → List Char
  | .nil => []
  | .cons k v t =>
      ',' :: ' ' :: '"' :: escapeChars k.toList ++ '"' :: ':' :: ' ' :: serV v ++
        serObjTail t
end

/-- `json.dumps` producing a `String`. -/
def serialize (j : Json) : String := ⟨serV j⟩

/-- The four JSON whitespace characters (`json.loads` skips them freely). -/
def isWsChar (c : Char) : Bool :=
  c = ' ' ∨ c = '\n' ∨ c = '\t' ∨ c = '\r'

/-- Skip leading JSON whitespace. -/
def skipWs (cs : List Char) : List Char := cs.dropWhile isWsChar

/-- Consume an expected literal character sequence. -/
def consumeLit : List Char → List Char → Option (List Char)
  | [], cs => some cs
  | _ :: _, [] => none
  | p :: ps, c :: cs => if c = p then consumeLit ps cs else none

/-- Parse the body of a string literal after its opening quote, returning the
unescaped content and the input after the closing quote.  Accepts exactly the
escapes the serializer emits. -/
def parseStringBody : List Char → Option (List Char × List Char)
  | [] => none
  | c :: rest =>
    if c = '"' then some ([], rest)
    else if c = '\\' then
      match rest with
      | [] => none
      | e :: rest2 =>
        if e = '"' ∨ e = '\\' then
          match parseStringBody rest2 with
          | some (s, r) => some (e :: s, r)
          | none => none
        else none
    else
      match parseStringBody rest with
      | some (s, r) => some (c :: s, r)
      | none => none

/-- Numeric value of a decimal digit character. -/
def charDigit (c : Char) : Nat := c.toNat - 48

/-- Value of a most-significant-first digit run. -/
def digitsVal (cs : List Char) : Nat :=
  cs.foldl (fun a c => 10 * a + charDigit c) 0

/-- Parse a nonempty decimal digit run. -/
def parseNatNum (cs : List Char) : Option (Nat × List Char) :=
  let ds := cs.takeWhile Char.isDigit
  if ds = [] then none else some (digitsVal ds, cs.dropWhile Char.isDigit)

/-- Parse an optionally negated decimal integer. -/
def parseNumber (cs : List Char) : Option (Int × List Char) :=
  if cs.head? = some '-' then
    match parseNatNum cs.tail with
    | some (m, r) => some (-(m : Int), r)
    | none => none
  else
    match parseNatNum cs with
    | some (m, r) => some ((m : Int), r)
    | none => none

mutual
/-- Recursive-descent JSON value parser (the model of `json.loads`); the fuel
argument only bounds the nesting recursion and is set generously at the top
level (`parseJson`). -/
def parseValue : Nat → List Char → Option (Json × List Char)
  | 0, _ => none
  | _ + 1, [] => none
  | fuel + 1, c :: rest =>
    if c = 'n' then
      match consumeLit kwNull rest with
      | some r => some (.null, r)
      | none => none
    else if c = 't' then
      match consumeLit kwTrue rest with
      | some r => some (.bool true, r)
      | none => none
    else if c = 'f' then
      match consumeLit kwFalse rest with
      | some r => some (.bool false, r)
      | none => none
    else if c = '"' then
      match parseStringBody rest with
      | some (s, r) => some (.str ⟨s⟩, r)
      | none => none
    else if c = '[' then
      let r1 := skipWs rest
      if r1.head? = some ']' then some (.arr .nil, r1.tail)
      else
        match parseValue fuel r1 with
        | some (v, r2) =>
          match parseArrTail fuel (skipWs r2) with
          | some (t, r3) => some (.arr (.cons v t), r3)
          | none => none
        | none => none
    else if c = '\x7b' then
      let r1 := skipWs rest
      if r1.head? = some '\x7d' then some (.obj .nil, r1.tail)
      else
        match parseMember fuel r1 with
        | some (k, v, r2) =>
          match parseObjTail fuel (skipWs r2) with
          | some (t, r3) => some (.obj (.cons k v t), r3)
          | none => none
        | none => none
    else if c = '-' ∨ c.isDigit then
      match parseNumber (c :: rest) with
      | some (n, r) => some (.num n, r)
      | none => none
    else none
/-- Parse the rest of an array after one element: a `]` or a `,`-separated
continuation. -/
def parseArrTail : Nat → List Char → Option (JsonArr × List Char)
  | 0, _ => none
  | fuel + 1, cs =>
    if cs.head? = some ']' then some (.nil, cs.tail)
    else if cs.head? = some ',' then
      match parseValue fuel (skipWs cs.tail) with
      | some (v, r2) =>
        match parseArrTail fuel (skipWs r2) with
        | some (t, r3) => some (.cons v t, r3)
        | none => none
      | none => none
    else none
/-- Parse one `"key": value` object member. -/
def parseMember : Nat → List Char → Option (String × Json × List Char)
  | 0, _ => none
  | fuel + 1, cs =>
    if cs.head? = some '"' then
      match parseStringBody cs.tail with
      | some (k, r1) =>
        let r2 := skipWs r1
        if r2.head? = some ':' then
          match parseValue fuel (skipWs r2.tail) with
          | some (v, r3) => some (⟨k⟩, v, r3)
          | none => none
        else none
      | none => none
    else none
/-- Parse the rest of an object after one member: a closing brace or a
`,`-separated continuation. -/
def parseObjTail : Nat → List Char → Option (JsonObj × List Char)
  | 0, _ => none
  | fuel + 1, cs =>
    if cs.head? = some '\x7d' then some (.nil, cs.tail)
    else if cs.head? = some ',' then
      match parseMember fuel (skipWs cs.tail) with
      | some (k, v, r2) =>
        match parseObjTail fuel (skipWs r2) with
        | some (t, r3) => some (.cons k v t, r3)
        | none => none
      | none => none
    else none
end

/-- `json.loads`: parse a whole character sequence as one JSON value
(surrounding whitespace allowed, nothing else may follow). -/
def parseJson (cs : List Char) : Option Json :=
  match parseValue (2 * cs.length + 2) (skipWs cs) with
  | some (j, rest) => if skipWs rest = [] then some j else none
  | none => none

/-- The span matched by `re.search(r"(\x7b(?:.|\n)*\x7d)", text)`: from the
first opening brace through the last closing brace after it, provided both
exist.  (`dropWhile` to the first opening brace, reversed `dropWhile` to the
last closing brace; a match needs at least the two braces.) -/
def braceSpan (cs : List Char) : Option (List Char) :=
  if 2 ≤ (((cs.dropWhile (fun c => c ≠ '\x7b')).reverse.dropWhile
            (fun c => c ≠ '\x7d')).reverse).length
  then some (((cs.dropWhile (fun c => c ≠ '\x7b')).reverse.dropWhile
            (fun c => c ≠ '\x7d')).reverse)
  else none

mutual
/-- Structural size of a JSON value (used to bound the parser fuel). -/
def sizeV : Json → Nat
  | .null => 1
  | .bool _ => 1
  | .num _ => 1
  | .str _ => 1
  | .arr l => 1 + sizeA l
  | .obj o => 1 + sizeO o
/-- Structural size of an array tail. -/
def sizeA : JsonArr → Nat
  | .nil => 1
  | .cons h t => 1 + sizeV h + sizeA t
/-- Structural size of an object tail. -/
def sizeO : JsonObj → Nat
  | .nil => 1
  | .cons _ v t => 1 + sizeV v + sizeO t
end

/-- The character stream does not begin with a decimal digit (so a number
parse just before it stops exactly there). -/
def NumStop (cs : List Char) : Prop :=
  ∀ c, cs.head? = some c → c.isDigit = false

/-- Heads that a serialized JSON value can start with. -/
def JsonHeadOk (c : Char) : Prop :=
  c = 'n' ∨ c = 't' ∨ c = 'f' ∨ c = '"' ∨ c = '[' ∨ c = '\x7b' ∨ c = '-' ∨
    c.isDigit = true

/-- The two `ValueError`s `extract_json` can raise: `parseFailure` stands for
"Error parsing JSON: {e}", `noJsonObject` for
"No JSON object found in the text.". -/
inductive ExtractError where
  | parseFailure : ExtractError
  | noJsonObject : ExtractError
  deriving DecidableEq, Repr

/-- `extract_json`: regex brace-span match, then `json.loads` on the span. -/
def extract_json (text : String) : Except ExtractError Json :=
  match braceSpan text.toList with
  | some span =>
    match parseJson span with
    | some j => .ok j
    | none => .error .parseFailure
  | none => .error .noJsonObject

/-! ## Per-field processing and the fan-out coordinator -/

/-- The transport-level failures either external client can raise (network
failure, timeout, auth failure); the schema failure of a missing index or
field.  Which one occurs is the oracle's choice; the pipeline treats them
all as an uncaught exception. -/
inductive WorkError where
  | networkFailure : WorkError
  | timeout : WorkError
  | authFailure : WorkError
  | schemaError : WorkError
  deriving DecidableEq, Repr

/-- Python's `str.strip()`: drop leading and trailing whitespace (modelled
over the four common whitespace characters; the claims only exercise
those). -/
def pyStrip (s : String) : String :=
  ⟨((s.toList.dropWhile isWsChar).reverse.dropWhile isWsChar).reverse⟩

/-- `process_field`: one unit of work.  `sampler index field data_type size`
is the oracle for `get_diverse_terms` (its single `es.search` call), `gen`
the oracle for `watsonx_client.generate_text`.  The `try/except ValueError`
around `extract_json` is the fallback-record construction; oracle errors
(transport/schema) are uncaught and propagate. -/
def process_field {ε : Type} (sampler : String → String → String → Nat → Except ε DiverseTerms)
    (gen : String → Except ε String) (index : String) (fd : FieldDetail)
    (threshold : Nat) : Except ε Json :=
  match sampler index fd.field_name fd.data_type threshold with
  | .error e => .error e
  | .ok dt =>
    let combined := combined_samples dt threshold
    match gen (generate_prompt index fd.field_name fd.data_type combined) with
    | .error e => .error e
    | .ok raw =>
      let llm_text := pyStrip raw
      match extract_json llm_text with
      | .ok j => .ok j
      | .error _ =>
          .ok (Json.obj (listToObj
            [("field_name", .str fd.field_name),
             ("index_name", .str index),
             ("data_type", .str fd.data_type),
             ("natural_language_description", .str llm_text),
             ("sample_value", .str (combined.headD ""))]))

/-- The result-collection loop of `process_index`: `as_completed` yields each
submitted future exactly once in completion order (`order`), the loop appends
`future.result()` to the accumulator, and a future that raised re-raises in
the main thread, aborting the loop.  A run is therefore parametrized by the
completion order, which ranges over permutations of the submitted fields. -/
def process_index_run {ε : Type} (order : List FieldDetail)
    (unit : FieldDetail → Except ε Json) : Except ε (List Json) :=
  match order with
  | [] => .ok []
  | fd :: rest =>
    match unit fd with
    | .ok r =>
      match process_index_run rest unit with
      | .ok rs => .ok (r :: rs)
      | .error e => .error e
    | .error e => .error e

/-- Admissible completion orders for a pool of `max_workers` workers over the
submitted field list: always a permutation of the submissions (every future
completes exactly once); with a single worker the units run one at a time in
submission order, so the completion order is the submission order. -/
def admissible_order (max_workers : Nat) (submitted order : List FieldDetail) : Prop :=
  order.Perm submitted ∧ (max_workers = 1 → order = submitted)

/-- `generate_metadata_dictionary`: the sequential `for index in indices`
loop, extending the accumulator with each index's `process_index` result;
an exception raised by any index's run propagates and aborts the loop.
`orderOf` gives the completion order of each index's fan-out. -/
def generate_metadata_dictionary_run {ε : Type} (indices : List String)
    (orderOf : String → List FieldDetail)
    (unit : String → FieldDetail → Except ε Json) : Except ε (List Json) :=
  match indices with
  | [] => .ok []
  | idx :: rest =>
    match process_index_run (orderOf idx) (unit idx) with
    | .ok l =>
      match generate_metadata_dictionary_run rest orderOf unit with
      | .ok ls => .ok (l ++ ls)
      | .error e => .error e
    | .error e => .error e

/-! ### Trace model of the cross-index scheduling

`generate_metadata_dictionary` calls `process_index` once per index, in
index order.  Each call submits all of the index's fields to a fresh
`ThreadPoolExecutor`, and returns only after `as_completed` has yielded every
future and the `with` block has shut the pool down.  An execution is thus a
concatenation of per-index traces; within one index's trace the submit events
appear in field order and the complete events in an arbitrary permutation. -/

/-- A scheduling event of the fan-out, tagged with the position of its index
in the index-iteration order. -/
inductive PoolEvent where
  | submit (idx : Nat) (fd : FieldDetail) : PoolEvent
  | complete (idx : Nat) (fd : FieldDetail) : PoolEvent
  deriving DecidableEq, Repr

/-- The index position an event belongs to. -/
def PoolEvent.index : PoolEvent → Nat
  | .submit k _ => k
  | .complete k _ => k

/-- The fields submitted for index position `k`, in event order. -/
def submittedFields (k : Nat) (t : List PoolEvent) : List FieldDetail :=
  t.filterMap fun e =>
    match e with
    | .submit k' fd => if k' = k then some fd else none
    | _ => none

/-- The fields completed for index position `k`, in event order. -/
def completedFields (k : Nat) (t : List PoolEvent) : List FieldDetail :=
  t.filterMap fun e =>
    match e with
    | .complete k' fd => if k' = k then some fd else none
    | _ => none

/-- Admissible trace of the fan-out of the index at position `k` with field
list `fields`: all its events belong to index `k`, the submissions are the
fields in order (all submitted up front), and every submitted unit completes
exactly once, in an arbitrary order. -/
def IsIndexTrace (k : Nat) (fields : List FieldDetail) (t : List PoolEvent) : Prop :=
  (∀ e ∈ t, e.index = k) ∧ submittedFields k t = fields ∧ (completedFields k t).Perm fields

/-! ## Helper lemmas -/

/-- Consuming an expected literal that is present succeeds. -/
theorem consumeLit_append (p r : List Char) : consumeLit p (p ++ r) = some r := by
  induction p with
  | nil => rfl
  | cons a t ih => simp [consumeLit, ih]

/-- Reading back a digit character of a digit value. -/
theorem charDigit_digitChar (d : Nat) (h : d < 10) :
    charDigit (Nat.digitChar d) = d := by
  interval_cases d <;> rfl

/-- Digit characters of digit values are decimal digits. -/
theorem digitChar_isDigit (d : Nat) (h : d < 10) :
    (Nat.digitChar d).isDigit = true := by
  interval_cases d <;> rfl

/-- `digitsVal` peels the least significant digit from the right. -/
theorem digitsVal_append (a : List Char) (c : Char) :
    digitsVal (a ++ [c]) = 10 * digitsVal a + charDigit c := by
  simp [digitsVal, List.foldl_append]

/-- Reading back a reversed digit-character rendering computes `ofDigits`. -/
theorem digitsVal_rev_map (ds : List Nat) (h : ∀ d ∈ ds, d < 10) :
    digitsVal ((ds.map Nat.digitChar).reverse) = Nat.ofDigits 10 ds := by
  induction ds with
  | nil => simp [digitsVal, Nat.ofDigits]
  | cons d t ih =>
    rw [List.map_cons, List.reverse_cons, digitsVal_append,
      ih fun x hx => h x (by simp [hx]), charDigit_digitChar d (h d (by simp)),
      Nat.ofDigits_cons]
    ring

/-- The decimal rendering of a natural number is nonempty. -/
theorem natChars_ne_nil (n : Nat) : natChars n ≠ [] := by
  unfold natChars
  split
  · simp
  · rename_i hn
    simp [Nat.digits_ne_nil_iff_ne_zero.mpr hn]

/-- Every character of the decimal rendering is a digit. -/
theorem natChars_all_digit (n : Nat) : ∀ c ∈ natChars n, c.isDigit = true := by
  unfold natChars
  split
  · simp
  · intro c hc
    rw [List.mem_reverse, List.mem_map] at hc
    obtain ⟨d, hd, rfl⟩ := hc
    exact digitChar_isDigit d (Nat.digits_lt_base (by norm_num) hd)

/-- Reading back the decimal rendering recovers the number. -/
theorem digitsVal_natChars (n : Nat) : digitsVal (natChars n) = n := by
  unfold natChars
  split
  · rename_i hn
    subst hn
    rfl
  · rw [digitsVal_rev_map _ fun d hd => Nat.digits_lt_base (by norm_num) hd,
      Nat.ofDigits_digits]

/-- After a `NumStop` stream, a digit `takeWhile` takes nothing. -/
theorem takeWhile_digit_numStop (cs : List Char) (h : NumStop cs) :
    cs.takeWhile Char.isDigit = [] := by
  cases cs with
  | nil => rfl
  | cons c t => exact List.takeWhile_cons_of_neg (by simp [h c rfl])

/-- After a `NumStop` stream, a digit `dropWhile` drops nothing. -/
theorem dropWhile_digit_numStop (cs : List Char) (h : NumStop cs) :
    cs.dropWhile Char.isDigit = cs := by
  cases cs with
  | nil => rfl
  | cons c t => exact List.dropWhile_cons_of_neg (by simp [h c rfl])

/-- Parsing the rendered digits of a natural number reads the number back and
stops at the first non-digit. -/
theorem parseNatNum_natChars (n : Nat) (rest : List Char) (hr : NumStop rest) :
    parseNatNum (natChars n ++ rest) = some (n, rest) := by
  unfold parseNatNum
  rw [List.takeWhile_append_of_pos (natChars_all_digit n),
    List.dropWhile_append_of_pos (natChars_all_digit n),
    takeWhile_digit_numStop rest hr, dropWhile_digit_numStop rest hr,
    List.append_nil]
  simp [natChars_ne_nil n, digitsVal_natChars n]

/-- The decimal rendering of an integer starts with a minus sign or digit. -/
theorem intChars_shape (n : Int) :
    ∃ c cc, intChars n = c :: cc ∧ (c = '-' ∨ c.isDigit = true) := by
  unfold intChars
  split
  · exact ⟨'-', _, rfl, Or.inl rfl⟩
  · obtain ⟨c, cc, hcc⟩ := List.exists_cons_of_ne_nil (natChars_ne_nil n.toNat)
    exact ⟨c, cc, hcc, Or.inr (natChars_all_digit _ c (hcc ▸ List.mem_cons_self _ _))⟩

/-- Parsing the rendered decimal integer reads the integer back. -/
theorem parseNumber_intChars (n : Int) (rest : List Char) (hr : NumStop rest) :
    parseNumber (intChars n ++ rest) = some (n, rest) := by
  unfold parseNumber intChars
  split
  · rename_i hneg
    rw [List.cons_append]
    simp only [List.head?_cons, List.tail_cons, if_pos rfl,
      parseNatNum_natChars _ rest hr]
    have : ((-n).toNat : Int) = -n := Int.toNat_of_nonneg (by omega)
    simp [this]
  · rename_i hpos
    obtain ⟨c, cc, hcc⟩ := List.exists_cons_of_ne_nil (natChars_ne_nil n.toNat)
    have hcdig : c.isDigit = true := natChars_all_digit _ c (hcc ▸ List.mem_cons_self _ _)
    have hcne : ¬ ((natChars n.toNat ++ rest).head? = some '-') := by
      rw [hcc, List.cons_append, List.head?_cons]
      intro hEq
      rw [Option.some.injEq] at hEq
      subst hEq
      exact absurd hcdig (by decide)
    rw [if_neg hcne, parseNatNum_natChars _ rest hr]
    have : (n.toNat : Int) = n := Int.toNat_of_nonneg (by omega)
    simp [this]

/-- Skipping whitespace over a stream whose head is not whitespace. -/
theorem skipWs_cons_not_ws (c : Char) (t : List Char) (hc : isWsChar c = false) :
    skipWs (c :: t) = c :: t := by
  unfold skipWs
  rw [List.dropWhile_cons_of_neg (by simp [hc])]

/-- Skipping whitespace consumes a leading blank. -/
theorem skipWs_space (t : List Char) : skipWs (' ' :: t) = skipWs t := by
  unfold skipWs
  rw [List.dropWhile_cons_of_pos (by rfl)]

/-- A serialized-value head is not whitespace nor a closing delimiter. -/
theorem jsonHeadOk_facts {c : Char} (h : JsonHeadOk c) :
    isWsChar c = false ∧ c ≠ ']' ∧ c ≠ '\x7d' := by
  have hne : ¬ (c = ' ' ∨ c = '\n' ∨ c = '\t' ∨ c = '\r' ∨ c = ']' ∨ c = '\x7d') := by
    rcases h with rfl | rfl | rfl | rfl | rfl | rfl | rfl | hd
    · decide
    · decide
    · decide
    · decide
    · decide
    · decide
    · decide
    · rintro (rfl | rfl | rfl | rfl | rfl | rfl) <;> exact absurd hd (by decide)
  push_neg at hne
  refine ⟨?_, hne.2.2.2.2.1, hne.2.2.2.2.2⟩
  simp [isWsChar, hne.1, hne.2.1, hne.2.2.1, hne.2.2.2.1]

/-- The head character test used by `parseValue` to dispatch on a serialized
value: none of the keyword/string/array/object branches can trigger for a
digit or minus sign, and vice versa. -/
theorem jsonHeadOk_of_serV (j : Json) :
    ∃ c cc, serV j = c :: cc ∧ JsonHeadOk c := by
  cases j with
  | null => exact ⟨'n', _, rfl, Or.inl rfl⟩
  | bool b =>
    cases b
    · exact ⟨'f', _, rfl, by simp [JsonHeadOk]⟩
    · exact ⟨'t', _, rfl, by simp [JsonHeadOk]⟩
  | num n =>
    obtain ⟨c, cc, hcc, hc⟩ := intChars_shape n
    refine ⟨c, cc, ?_, ?_⟩
    · rw [serV, hcc]
    · rcases hc with rfl | hd
      · simp [JsonHeadOk]
      · exact Or.inr (Or.inr (Or.inr (Or.inr (Or.inr (Or.inr (Or.inr hd))))))
  | str s => exact ⟨'"', _, rfl, by simp [JsonHeadOk]⟩
  | arr l =>
    cases l
    · exact ⟨'[', _, rfl, by simp [JsonHeadOk]⟩
    · exact ⟨'[', _, rfl, by simp [JsonHeadOk]⟩
  | obj o =>
    cases o
    · exact ⟨'\x7b', _, rfl, by simp [JsonHeadOk]⟩
    · exact ⟨'\x7b', _, rfl, by simp [JsonHeadOk]⟩

/-- Skipping whitespace in front of a serialized value does nothing. -/
theorem skipWs_serV (j : Json) (r : List Char) :
    skipWs (serV j ++ r) = serV j ++ r := by
  obtain ⟨c, cc, hcc, hc⟩ := jsonHeadOk_of_serV j
  rw [hcc, List.cons_append, skipWs_cons_not_ws _ _ (jsonHeadOk_facts hc).1]

/-- Whitespace skipping stops at a closing bracket. -/
@[simp] theorem skipWs_rbracket (t : List Char) : skipWs (']' :: t) = ']' :: t :=
  skipWs_cons_not_ws _ _ (by decide)

/-- Whitespace skipping stops at a closing brace. -/
@[simp] theorem skipWs_rbrace (t : List Char) : skipWs ('\x7d' :: t) = '\x7d' :: t :=
  skipWs_cons_not_ws _ _ (by decide)

/-- Whitespace skipping stops at a comma. -/
@[simp] theorem skipWs_comma (t : List Char) : skipWs (',' :: t) = ',' :: t :=
  skipWs_cons_not_ws _ _ (by decide)

/-- Whitespace skipping stops at a colon. -/
@[simp] theorem skipWs_colon (t : List Char) : skipWs (':' :: t) = ':' :: t :=
  skipWs_cons_not_ws _ _ (by decide)

/-- Whitespace skipping stops at a quote. -/
@[simp] theorem skipWs_quote (t : List Char) : skipWs ('"' :: t) = '"' :: t :=
  skipWs_cons_not_ws _ _ (by decide)

/-- The remainder after an array element never starts with a digit. -/
theorem numStop_arrTail (t : JsonArr) (r : List Char) :
    NumStop (serArrTail t ++ ']' :: r) := by
  intro c hc
  cases t with
  | nil =>
    simp only [serArrTail, List.nil_append, List.head?_cons, Option.some.injEq] at hc
    subst hc; decide
  | cons h t' =>
    simp only [serArrTail, List.cons_append, List.head?_cons, Option.some.injEq] at hc
    subst hc; decide

/-- The remainder after an object member never starts with a digit. -/
theorem numStop_objTail (t : JsonObj) (r : List Char) :
    NumStop (serObjTail t ++ '\x7d' :: r) := by
  intro c hc
  cases t with
  | nil =>
    simp only [serObjTail, List.nil_append, List.head?_cons, Option.some.injEq] at hc
    subst hc; decide
  | cons k v t' =>
    simp only [serObjTail, List.cons_append, List.head?_cons, Option.some.injEq] at hc
    subst hc; decide

/-- No whitespace before an array continuation. -/
theorem skipWs_arrTail (t : JsonArr) (r : List Char) :
    skipWs (serArrTail t ++ ']' :: r) = serArrTail t ++ ']' :: r := by
  cases t with
  | nil => simp [serArrTail]
  | cons h t' => simp only [serArrTail, List.cons_append, skipWs_comma]

/-- No whitespace before an object continuation. -/
theorem skipWs_objTail (t : JsonObj) (r : List Char) :
    skipWs (serObjTail t ++ '\x7d' :: r) = serObjTail t ++ '\x7d' :: r := by
  cases t with
  | nil => simp [serObjTail]
  | cons k v t' => simp only [serObjTail, List.cons_append, skipWs_comma]

/-- Parsing an escaped string body recovers it up to the closing quote. -/
theorem parseStringBody_escape (s rest : List Char) :
    parseStringBody (escapeChars s ++ '"' :: rest) = some (s, rest) := by
  induction s with
  | nil => simp [escapeChars, parseStringBody.eq_def]
  | cons c t ih =>
    by_cases hc : c = '"' ∨ c = '\\'
    · rw [show escapeChars (c :: t) = '\\' :: c :: escapeChars t by
        simp [escapeChars, escapeChar, hc]]
      simp only [List.cons_append]
      rw [parseStringBody.eq_def]
      simp [hc, ih]
    · push_neg at hc
      rw [show escapeChars (c :: t) = c :: escapeChars t by
        simp [escapeChars, escapeChar, hc.1, hc.2]]
      simp only [List.cons_append]
      rw [parseStringBody.eq_def]
      simp [hc.1, hc.2, ih]

mutual
/-- A value's structural size is bounded by twice its serialized length. -/
theorem sizeV_le_len (j : Json) : sizeV j ≤ 2 * (serV j).length := by
  cases j with
  | null => simp [sizeV, serV, kwNull]
  | bool b => cases b <;> simp [sizeV, serV, kwTrue, kwFalse]
  | num n =>
    obtain ⟨c, cc, hcc, _⟩ := intChars_shape n
    simp only [sizeV, serV, hcc, List.length_cons]
    omega
  | str s =>
    simp only [sizeV, serV, List.length_cons, List.length_append]
    omega
  | arr l =>
    cases l with
    | nil => simp [sizeV, sizeA, serV]
    | cons h t =>
      have h1 := sizeV_le_len h
      have h2 := sizeA_le_len t
      simp only [sizeV, sizeA, serV, List.length_cons, List.length_append]
      omega
  | obj o =>
    cases o with
    | nil => simp [sizeV, sizeO, serV]
    | cons k v t =>
      have h1 := sizeV_le_len v
      have h2 := sizeO_le_len t
      simp only [sizeV, sizeO, serV, List.length_cons, List.length_append]
      omega
/-- An array tail's structural size is bounded by twice its serialized
length plus one. -/
theorem sizeA_le_len (l : JsonArr) : sizeA l ≤ 2 * (serArrTail l).length + 1 := by
  cases l with
  | nil => simp [sizeA, serArrTail]
  | cons h t =>
    have h1 := sizeV_le_len h
    have h2 := sizeA_le_len t
    simp only [sizeA, serArrTail, List.length_cons, List.length_append]
    omega
/-- An object tail's structural size is bounded by twice its serialized
length plus one. -/
theorem sizeO_le_len (o : JsonObj) : sizeO o ≤ 2 * (serObjTail o).length + 1 := by
  cases o with
  | nil => simp [sizeO, serObjTail]
  | cons k v t =>
    have h1 := sizeV_le_len v
    have h2 := sizeO_le_len t
    simp only [sizeO, serObjTail, List.length_cons, List.length_append]
    omega
end

/-- Every JSON value has positive size. -/
theorem sizeV_pos (j : Json) : 1 ≤ sizeV j := by cases j <;> simp [sizeV]

/-- Every array tail has positive size. -/
theorem sizeA_pos (l : JsonArr) : 1 ≤ sizeA l := by
  cases l <;> simp only [sizeA] <;> omega

/-- Every object tail has positive size. -/
theorem sizeO_pos (o : JsonObj) : 1 ≤ sizeO o := by
  cases o <;> simp only [sizeO] <;> omega

/-- Parsing a serialized object member returns the key, the value and the
continuation (given the value's round trip). -/
theorem parseMember_ser (g : Nat) (k : String) (v : Json) (rest : List Char)
    (ihv : parseValue g (serV v ++ rest) = some (v, rest)) :
    parseMember (g + 1)
      ('"' :: (escapeChars k.toList ++ ('"' :: ':' :: ' ' :: (serV v ++ rest))))
      = some (k, v, rest) := by
  rw [parseMember.eq_def]
  simp only [List.head?_cons, Option.some.injEq, if_pos rfl, List.tail_cons,
    parseStringBody_escape, skipWs_colon, skipWs_space, skipWs_serV, ihv]
  simp

mutual
/-- Round trip: parsing a serialized value (with fuel above its size and a
non-digit continuation) yields the value and leaves the continuation. -/
theorem parseValue_serV (j : Json) (fuel : Nat) (rest : List Char)
    (hf : sizeV j < fuel) (hr : NumStop rest) :
    parseValue fuel (serV j ++ rest) = some (j, rest) := by
  cases fuel with
  | zero => exact absurd hf (by omega)
  | succ fuel =>
    cases j with
    | null =>
      simp only [serV, List.cons_append, List.nil_append]
      rw [parseValue.eq_def]
      simp [consumeLit]
    | bool b =>
      cases b with
      | false =>
        simp only [serV, List.cons_append, List.nil_append]
        rw [parseValue.eq_def]
        simp [consumeLit]
      | true =>
        simp only [serV, List.cons_append, List.nil_append]
        rw [parseValue.eq_def]
        simp [consumeLit]
    | num n =>
      obtain ⟨c, cc, hcc, hc⟩ := intChars_shape n
      have hser : serV (.num n) = c :: cc := by rw [serV, hcc]
      rw [hser, List.cons_append]
      have hne : c ≠ 'n' ∧ c ≠ 't' ∧ c ≠ 'f' ∧ c ≠ '"' ∧ c ≠ '[' ∧ c ≠ '\x7b' := by
        rcases hc with rfl | hd
        · exact ⟨by decide, by decide, by decide, by decide, by decide, by decide⟩
        · exact ⟨fun hE => absurd hd (by subst hE; decide),
            fun hE => absurd hd (by subst hE; decide),
            fun hE => absurd hd (by subst hE; decide),
            fun hE => absurd hd (by subst hE; decide),
            fun hE => absurd hd (by subst hE; decide),
            fun hE => absurd hd (by subst hE; decide)⟩
      rw [parseValue.eq_def]
      simp only [if_neg hne.1, if_neg hne.2.1, if_neg hne.2.2.1, if_neg hne.2.2.2.1,
        if_neg hne.2.2.2.2.1, if_neg hne.2.2.2.2.2, if_pos hc]
      rw [← List.cons_append, ← hcc, parseNumber_intChars n rest hr]
    | str s =>
      simp only [serV, List.cons_append, List.append_assoc, List.nil_append]
      rw [parseValue.eq_def]
      simp [parseStringBody_escape]
    | arr l =>
      cases l with
      | nil =>
        simp only [serV, List.cons_append, List.nil_append]
        rw [parseValue.eq_def]
        simp
      | cons h t =>
        have hszh : sizeV h < fuel := by simp only [sizeV, sizeA] at hf; omega
        have hszt : sizeA t < fuel := by simp only [sizeV, sizeA] at hf; omega
        have ih1 := parseValue_serV h fuel (serArrTail t ++ ']' :: rest) hszh
          (numStop_arrTail t rest)
        have ih2 := parseArrTail_ser t fuel rest hszt
        obtain ⟨c, cc, hcc, hc⟩ := jsonHeadOk_of_serV h
        have hfacts := jsonHeadOk_facts hc
        have hin : serV (.arr (.cons h t)) ++ rest
            = '[' :: (c :: (cc ++ (serArrTail t ++ ']' :: rest))) := by
          simp [serV, hcc]
        rw [hin, parseValue.eq_def]
        have hback : (c :: (cc ++ (serArrTail t ++ ']' :: rest)) : List Char)
            = serV h ++ (serArrTail t ++ ']' :: rest) := by rw [hcc]; simp
        have ih1x : parseValue fuel (c :: (cc ++ (serArrTail t ++ ']' :: rest)))
            = some (h, serArrTail t ++ ']' :: rest) := by rw [hback]; exact ih1
        simp only [skipWs_cons_not_ws c _ hfacts.1, List.head?_cons,
          Option.some.injEq, if_neg hfacts.2.1, ih1x]
        simp [skipWs_arrTail, ih2]
    | obj o =>
      cases o with
      | nil =>
        simp only [serV, List.cons_append, List.nil_append]
        rw [parseValue.eq_def]
        simp
      | cons k v t =>
        cases fuel with
        | zero =>
          refine absurd hf ?_
          have h1 := sizeV_pos v
          have h2 := sizeO_pos t
          simp only [sizeV, sizeO]
          omega
        | succ g =>
          have hszv : sizeV v < g := by
            have h2 := sizeO_pos t
            simp only [sizeV, sizeO] at hf
            omega
          have hszt : sizeO t < g + 1 := by
            have h1 := sizeV_pos v
            simp only [sizeV, sizeO] at hf
            omega
          have ihv := parseValue_serV v g (serObjTail t ++ '\x7d' :: rest) hszv
            (numStop_objTail t rest)
          have hm := parseMember_ser g k v (serObjTail t ++ '\x7d' :: rest) ihv
          have iho := parseObjTail_ser t (g + 1) rest hszt
          have hin : serV (.obj (.cons k v t)) ++ rest
              = '\x7b' :: ('"' :: (escapeChars k.toList ++
                  ('"' :: ':' :: ' ' :: (serV v ++ (serObjTail t ++ '\x7d' :: rest))))) := by
            simp [serV]
          rw [hin, parseValue.eq_def]
          simp only [skipWs_quote, List.head?_cons, Option.some.injEq, hm]
          simp [skipWs_objTail, iho]
/-- Round trip for the continuation of a serialized array. -/
theorem parseArrTail_ser (l : JsonArr) (fuel : Nat) (rest : List Char)
    (hf : sizeA l < fuel) :
    parseArrTail fuel (serArrTail l ++ ']' :: rest) = some (l, rest) := by
  cases fuel with
  | zero => exact absurd hf (by omega)
  | succ fuel =>
    cases l with
    | nil =>
      simp only [serArrTail, List.nil_append]
      rw [parseArrTail.eq_def]
      simp
    | cons h t =>
      have hszh : sizeV h < fuel := by simp only [sizeA] at hf; omega
      have hszt : sizeA t < fuel := by simp only [sizeA] at hf; omega
      have ih1 := parseValue_serV h fuel (serArrTail t ++ ']' :: rest) hszh
        (numStop_arrTail t rest)
      have ih2 := parseArrTail_ser t fuel rest hszt
      have hin : serArrTail (.cons h t) ++ ']' :: rest
          = ',' :: (' ' :: (serV h ++ (serArrTail t ++ ']' :: rest))) := by
        simp [serArrTail]
      rw [hin, parseArrTail.eq_def]
      simp only [List.head?_cons, Option.some.injEq, List.tail_cons,
        skipWs_space, skipWs_serV, ih1]
      simp [skipWs_arrTail, ih2]
/-- Round trip for the continuation of a serialized object. -/
theorem parseObjTail_ser (o : JsonObj) (fuel : Nat) (rest : List Char)
    (hf : sizeO o < fuel) :
    parseObjTail fuel (serObjTail o ++ '\x7d' :: rest) = some (o, rest) := by
  cases fuel with
  | zero => exact absurd hf (by omega)
  | succ fuel =>
    cases o with
    | nil =>
      simp only [serObjTail, List.nil_append]
      rw [parseObjTail.eq_def]
      simp
    | cons k v t =>
      cases fuel with
      | zero =>
        refine absurd hf ?_
        have h1 := sizeV_pos v
        have h2 := sizeO_pos t
        simp only [sizeO]
        omega
      | succ g =>
        have hszv : sizeV v < g := by
          have h2 := sizeO_pos t
          simp only [sizeO] at hf
          omega
        have hszt : sizeO t < g + 1 := by
          have h1 := sizeV_pos v
          simp only [sizeO] at hf
          omega
        have ihv := parseValue_serV v g (serObjTail t ++ '\x7d' :: rest) hszv
          (numStop_objTail t rest)
        have hm := parseMember_ser g k v (serObjTail t ++ '\x7d' :: rest) ihv
        have iho := parseObjTail_ser t (g + 1) rest hszt
        have hin : serObjTail (.cons k v t) ++ '\x7d' :: rest
            = ',' :: (' ' :: ('"' :: (escapeChars k.toList ++
                ('"' :: ':' :: ' ' :: (serV v ++ (serObjTail t ++ '\x7d' :: rest)))))) := by
          simp [serObjTail]
        rw [hin, parseObjTail.eq_def]
        simp only [List.head?_cons, Option.some.injEq, List.tail_cons,
          skipWs_space, skipWs_quote, hm]
        simp [skipWs_objTail, iho]
end

/-- `json.loads` of a serialized value returns the value. -/
theorem parseJson_serV (j : Json) : parseJson (serV j) = some j := by
  unfold parseJson
  have h1 : skipWs (serV j) = serV j := by
    have h := skipWs_serV j []
    simpa using h
  rw [h1]
  have h2 : parseValue (2 * (serV j).length + 2) (serV j ++ []) = some (j, []) :=
    parseValue_serV j _ [] (by have := sizeV_le_len j; omega)
      (fun c hc => by simp at hc)
  rw [List.append_nil] at h2
  rw [h2]
  simp [skipWs]

/-- A serialized object is one opening brace, a middle, one closing brace. -/
theorem serV_obj_shape (o : JsonObj) :
    ∃ mid, serV (.obj o) = '\x7b' :: (mid ++ ['\x7d']) := by
  cases o with
  | nil => exact ⟨[], rfl⟩
  | cons k v t =>
    refine ⟨'"' :: escapeChars k.toList ++ '"' :: ':' :: ' ' :: serV v ++
      serObjTail t, ?_⟩
    simp [serV]

/-- The regex finds exactly the whole string when it is brace-wrapped. -/
theorem braceSpan_wrap (mid : List Char) :
    braceSpan ('\x7b' :: (mid ++ ['\x7d'])) = some ('\x7b' :: (mid ++ ['\x7d'])) := by
  unfold braceSpan
  rw [List.dropWhile_cons_of_neg (by simp)]
  rw [show ('\x7b' :: (mid ++ ['\x7d']) : List Char).reverse
      = '\x7d' :: (mid.reverse ++ ['\x7b']) by simp]
  rw [List.dropWhile_cons_of_neg (by simp)]
  rw [show ('\x7d' :: (mid.reverse ++ ['\x7b']) : List Char).reverse
      = '\x7b' :: (mid ++ ['\x7d']) by simp]
  rw [if_pos (by simp)]

/-- When every unit in completion order succeeds, the collection loop returns
the units' results in completion order. -/
theorem process_index_run_all_ok {ε : Type} (order : List FieldDetail)
    (unit : FieldDetail → Except ε Json) (f : FieldDetail → Json)
    (h : ∀ fd ∈ order, unit fd = .ok (f fd)) :
    process_index_run order unit = .ok (order.map f) := by
  induction order with
  | nil => rfl
  | cons fd rest ih =>
    have h1 : unit fd = .ok (f fd) := h fd (by simp)
    have h2 : process_index_run rest unit = .ok (rest.map f) :=
      ih fun x hx => h x (by simp [hx])
    simp [process_index_run, h1, h2]

/-- Taking a nonempty-bounded number of elements does not change the head. -/
theorem headD_take {α : Type} (l : List α) (n : Nat) (d : α) (h : 0 < n) :
    (l.take n).headD d = l.headD d := by
  cases l with
  | nil => simp
  | cons a t =>
    cases n with
    | zero => omega
    | succ m => simp

/-- `dropWhile` keeps an element the predicate rejects. -/
theorem dropWhile_ne_nil_of_mem {p : Char → Bool} {l : List Char} {x : Char}
    (hx : x ∈ l) (hpx : p x = false) : l.dropWhile p ≠ [] := by
  induction l with
  | nil => simp at hx
  | cons a t ih =>
    rw [List.dropWhile_cons]
    split
    · rename_i hpa
      rcases List.mem_cons.mp hx with rfl | hxt
      · rw [hpa] at hpx; simp at hpx
      · exact ih hxt
    · simp

/-- The head surviving a `dropWhile` fails the predicate. -/
theorem dropWhile_eq_cons_head_false {p : Char → Bool} {l : List Char} {c : Char}
    {cs : List Char} (h : l.dropWhile p = c :: cs) : p c = false := by
  induction l with
  | nil => simp at h
  | cons a t ih =>
    rw [List.dropWhile_cons] at h
    split at h
    · exact ih h
    · rename_i hpa
      cases h
      exact Bool.eq_false_iff.mpr hpa

/-- Any span returned by `braceSpan` starts with an opening brace, ends with
a closing brace, and is a contiguous slice of the input. -/
theorem braceSpan_some_shape (cs u : List Char) (h : braceSpan cs = some u) :
    (∃ mid, u = '\x7b' :: mid ++ ['\x7d']) ∧ ∃ l₁ l₃, cs = l₁ ++ u ++ l₃ := by
  unfold braceSpan at h
  split at h
  case isFalse => simp at h
  case isTrue hlen =>
    rw [Option.some.injEq] at h
    rw [h] at hlen
    -- names for the two stages
    have hu : ((cs.dropWhile (fun c => c ≠ '\x7b')).reverse.dropWhile
        (fun c => c ≠ '\x7d')).reverse = u := h
    have hTsplit : cs.dropWhile (fun c => c ≠ '\x7b')
        = u ++ ((cs.dropWhile (fun c => c ≠ '\x7b')).reverse.takeWhile
            (fun c => c ≠ '\x7d')).reverse := by
      conv_lhs => rw [← List.reverse_reverse (cs.dropWhile (fun c => c ≠ '\x7b')),
        ← List.takeWhile_append_dropWhile (fun c => c ≠ '\x7d')
          (cs.dropWhile (fun c => c ≠ '\x7b')).reverse]
      rw [List.reverse_append, hu]
    have hslice : ∃ l₁ l₃, cs = l₁ ++ u ++ l₃ := by
      refine ⟨cs.takeWhile (fun c => c ≠ '\x7b'),
        ((cs.dropWhile (fun c => c ≠ '\x7b')).reverse.takeWhile
            (fun c => c ≠ '\x7d')).reverse, ?_⟩
      conv_lhs => rw [← List.takeWhile_append_dropWhile (fun c => c ≠ '\x7b') cs, hTsplit]
      rw [List.append_assoc]
    -- u begins with a cons
    obtain ⟨u₀, u', huc⟩ := List.exists_cons_of_ne_nil
      (List.ne_nil_of_length_pos (by omega) : u ≠ [])
    -- first character: an opening brace
    have hu₀ : u₀ = '\x7b' := by
      have hT : cs.dropWhile (fun c => c ≠ '\x7b') = u₀ :: (u' ++
          ((cs.dropWhile (fun c => c ≠ '\x7b')).reverse.takeWhile
            (fun c => c ≠ '\x7d')).reverse) := by
        conv_lhs => rw [hTsplit]
        rw [huc, List.cons_append]
      simpa using dropWhile_eq_cons_head_false hT
    -- last character: a closing brace
    obtain ⟨d, w, hdw⟩ : ∃ d w, (cs.dropWhile (fun c => c ≠ '\x7b')).reverse.dropWhile
        (fun c => c ≠ '\x7d') = d :: w := by
      rcases hD : (cs.dropWhile (fun c => c ≠ '\x7b')).reverse.dropWhile
          (fun c => c ≠ '\x7d') with _ | ⟨d, w⟩
      · rw [hD] at hu
        simp only [List.reverse_nil] at hu
        rw [← hu] at hlen
        simp at hlen
      · exact ⟨d, w, rfl⟩
    have hd : d = '\x7d' := by simpa using dropWhile_eq_cons_head_false hdw
    have hulast : u = w.reverse ++ ['\x7d'] := by
      rw [← hu, hdw, hd, List.reverse_cons]
    refine ⟨?_, hslice⟩
    -- combine the two ends
    rcases hwr : w.reverse with _ | ⟨m, ms⟩
    · rw [hwr] at hulast
      simp only [List.nil_append] at hulast
      rw [hulast] at hlen
      simp at hlen
    · rw [hwr] at hulast
      refine ⟨ms, ?_⟩
      rw [huc] at hulast
      have hm : u' = ms ++ ['\x7d'] :=
        (List.cons_eq_cons.mp (by simpa using hulast)).2
      rw [huc, hu₀, hm, List.cons_append]

/-- `dropWhile` for the first opening brace lands on the first opening
brace, and everything after the brace stays in the suffix. -/
theorem dropWhile_to_first_brace (l₁ mid : List Char) :
    ∃ s, (l₁ ++ '\x7b' :: mid).dropWhile (fun c => c ≠ '\x7b') = '\x7b' :: s ∧
      ('\x7d' ∈ mid → '\x7d' ∈ ('\x7b' :: s : List Char)) := by
  induction l₁ with
  | nil =>
    refine ⟨mid, ?_, fun hm => List.mem_cons_of_mem _ hm⟩
    rw [List.nil_append, List.dropWhile_cons_of_neg (by simp)]
  | cons a t ih =>
    rw [List.cons_append, List.dropWhile_cons]
    split
    · exact ih
    · rename_i hqa
      have ha : a = '\x7b' := by simpa using hqa
      subst ha
      exact ⟨t ++ '\x7b' :: mid, rfl, fun hm => by simp [hm]⟩

/-- If the input contains an opening brace with a closing brace somewhere
after it, the regex finds a span. -/
theorem braceSpan_isSome_of_decomp (l₁ l₂ l₃ : List Char) :
    ∃ u, braceSpan (l₁ ++ '\x7b' :: (l₂ ++ '\x7d' :: l₃)) = some u := by
  obtain ⟨s, hts, hsm⟩ := dropWhile_to_first_brace l₁ (l₂ ++ '\x7d' :: l₃)
  have hmem : '\x7d' ∈ ('\x7b' :: s : List Char) := hsm (by simp)
  set cs := l₁ ++ '\x7b' :: (l₂ ++ '\x7d' :: l₃) with hcs
  have hDne : (cs.dropWhile (fun c => c ≠ '\x7b')).reverse.dropWhile
      (fun c => c ≠ '\x7d') ≠ [] := by
    refine dropWhile_ne_nil_of_mem (x := '\x7d') ?_ (by simp)
    rw [List.mem_reverse, hts]
    exact hmem
  obtain ⟨d, w, hdw⟩ := List.exists_cons_of_ne_nil hDne
  have hd : d = '\x7d' := by simpa using dropWhile_eq_cons_head_false hdw
  have hTsplit : cs.dropWhile (fun c => c ≠ '\x7b')
      = (d :: w).reverse ++ ((cs.dropWhile (fun c => c ≠ '\x7b')).reverse.takeWhile
          (fun c => c ≠ '\x7d')).reverse := by
    conv_lhs => rw [← List.reverse_reverse (cs.dropWhile (fun c => c ≠ '\x7b')),
      ← List.takeWhile_append_dropWhile (fun c => c ≠ '\x7d')
        (cs.dropWhile (fun c => c ≠ '\x7b')).reverse]
    rw [List.reverse_append, hdw]
  have hw : w ≠ [] := by
    intro hnil
    subst hnil
    rw [hts] at hTsplit
    simp only [List.reverse_cons, List.reverse_nil, List.nil_append,
      List.singleton_append] at hTsplit
    have := (List.cons_eq_cons.mp hTsplit).1
    rw [hd] at this
    exact absurd this (by decide)
  have hlen : 2 ≤ ((cs.dropWhile (fun c => c ≠ '\x7b')).reverse.dropWhile
      (fun c => c ≠ '\x7d')).reverse.length := by
    rw [hdw]
    have : 1 ≤ w.length := List.length_pos.mpr hw
    simp only [List.reverse_cons, List.length_append, List.length_reverse,
      List.length_cons, List.length_nil]
    omega
  exact ⟨_, by rw [braceSpan, if_pos hlen]⟩

/-- The sequential cross-index loop, when every unit succeeds, returns the
per-index result lists concatenated in index-iteration order. -/
theorem generate_run_all_ok {ε : Type} (indices : List String)
    (orderOf : String → List FieldDetail)
    (unit : String → FieldDetail → Except ε Json) (f : String → FieldDetail → Json)
    (hok : ∀ idx ∈ indices, ∀ fd ∈ orderOf idx, unit idx fd = .ok (f idx fd)) :
    generate_metadata_dictionary_run indices orderOf unit
      = .ok ((indices.map fun idx => (orderOf idx).map (f idx)).flatten) := by
  induction indices with
  | nil => rfl
  | cons idx rest ih =>
    have h1 : process_index_run (orderOf idx) (unit idx)
        = .ok ((orderOf idx).map (f idx)) :=
      process_index_run_all_ok _ _ _ (hok idx (by simp))
    have h2 := ih fun j hj fd hfd => hok j (by simp [hj]) fd hfd
    simp [generate_metadata_dictionary_run, h1, h2]

/-- Events in the flattened prefix of per-index traces carry low indices. -/
theorem mem_flatten_take_index (traces : List (List PoolEvent)) (m : Nat)
    (htag : ∀ k (hk : k < traces.length), ∀ e ∈ traces.get ⟨k, hk⟩, e.index = k)
    (e : PoolEvent) (he : e ∈ (traces.take m).flatten) : e.index < m := by
  rw [List.mem_flatten] at he
  obtain ⟨l, hl, hel⟩ := he
  rw [List.mem_iff_getElem] at hl
  obtain ⟨i, hi, hil⟩ := hl
  have hb : i < m ∧ i < traces.length := by
    rw [List.length_take] at hi
    omega
  have hgl : traces[i] = l := by
    rw [← hil, List.getElem_take]
  have := htag i hb.2 e (by
    rw [List.get_eq_getElem, hgl]
    exact hel)
  omega

/-- Events in the flattened suffix of per-index traces carry high indices. -/
theorem mem_flatten_drop_index (traces : List (List PoolEvent)) (m : Nat)
    (htag : ∀ k (hk : k < traces.length), ∀ e ∈ traces.get ⟨k, hk⟩, e.index = k)
    (e : PoolEvent) (he : e ∈ (traces.drop m).flatten) : m ≤ e.index := by
  rw [List.mem_flatten] at he
  obtain ⟨l, hl, hel⟩ := he
  rw [List.mem_iff_getElem] at hl
  obtain ⟨j, hj, hjl⟩ := hl
  have hb : m + j < traces.length := by
    rw [List.length_drop] at hj
    omega
  have hgl : traces[m + j] = l := by
    rw [← hjl, List.getElem_drop]
  have := htag (m + j) hb e (by
    rw [List.get_eq_getElem, hgl]
    exact hel)
  omega

/-! ## Claim theorems -/

/-- C4: for every bundle of raw term-bucket values (the union of the
frequent, rare and significant term lists, duplicates allowed) and every
threshold, the sample list `process_field` passes into prompt construction
(`list(set(...))[:threshold]`, default threshold 20) has no duplicate
entries and length at most the threshold. -/
theorem combined_samples_nodup_and_bounded (dt : DiverseTerms) (threshold : Nat) :
    (combined_samples dt threshold).Nodup ∧
    (combined_samples dt threshold).length ≤ threshold := by
  constructor
  · exact List.Sublist.nodup (List.take_sublist _ _) (List.nodup_dedup _)
  · exact List.length_take_le _ _

/-- C10: a mapping property without a declared `type` key yields a
`FieldDetail` whose `data_type` is the literal string "unknown"; such a field
is still in the processed field list, and since "unknown" is not "text" the
aggregation target resolved for it is the bare field name. -/
theorem get_fields_missing_type_unknown (properties : List (String × Option String))
    (name : String) (h : (name, (none : Option String)) ∈ properties) :
    (⟨name, "unknown"⟩ : FieldDetail) ∈ get_fields properties ∧
    resolve_agg_field name "unknown" = name := by
  constructor
  · exact List.mem_map_of_mem _ h
  · simp [resolve_agg_field]

/-- Witness for C10 at a concrete mapping. -/
theorem get_fields_missing_type_unknown_witness :
    (⟨"tags", "unknown"⟩ : FieldDetail) ∈
      get_fields [("desc", some "text"), ("tags", none)] ∧
    resolve_agg_field "tags" "unknown" = "tags" :=
  get_fields_missing_type_unknown [("desc", some "text"), ("tags", none)] "tags" (by decide)

/-- C2: `extract_json` has exactly three outcomes.  (a) If the brace span
(first opening brace through the last closing brace) parses as JSON, the
parsed object is returned as-is; (b) if the span fails parsing, the
parse-failure error is raised; (c) if no span exists, the "no JSON object
found" error is raised.  The last conjunct identifies span absence with the
absence of any opening brace followed (anywhere later) by a closing brace. -/
theorem extract_json_trichotomy (text : String) :
    (∀ span j, braceSpan text.toList = some span → parseJson span = some j →
      extract_json text = .ok j) ∧
    (∀ span, braceSpan text.toList = some span → parseJson span = none →
      extract_json text = .error .parseFailure) ∧
    (braceSpan text.toList = none → extract_json text = .error .noJsonObject) ∧
    (braceSpan text.toList = none ↔
      ¬ ∃ l₁ l₂ l₃, text.toList = l₁ ++ '\x7b' :: (l₂ ++ '\x7d' :: l₃)) := by
  refine ⟨?_, ?_, ?_, ?_⟩
  · intro span j h1 h2
    simp only [String.toList] at h1
    simp [extract_json, h1, h2]
  · intro span h1 h2
    simp only [String.toList] at h1
    simp [extract_json, h1, h2]
  · intro h1
    simp only [String.toList] at h1
    simp [extract_json, h1]
  · constructor
    · rintro hnone ⟨a, b, c, hdec⟩
      obtain ⟨u, hu⟩ := braceSpan_isSome_of_decomp a b c
      rw [← hdec, hnone] at hu
      simp at hu
    · intro hno
      rcases hbs : braceSpan text.toList with _ | u
      · rfl
      · exfalso
        obtain ⟨⟨mid, hmid⟩, l₁, l₃, hsl⟩ := braceSpan_some_shape _ _ hbs
        refine hno ⟨l₁, mid, l₃, ?_⟩
        rw [hsl, hmid]
        simp

/-- Witness for C2: a concrete text for each of the three outcomes. -/
theorem extract_json_trichotomy_witness :
    extract_json "say \x7b\"a\": 1\x7d ok" = .ok (Json.obj (.cons "a" (.num 1) .nil)) ∧
    extract_json "\x7boops\x7d" = .error .parseFailure ∧
    extract_json "no braces at all" = .error .noJsonObject :=
  ⟨(extract_json_trichotomy "say \x7b\"a\": 1\x7d ok").1 _ _ rfl rfl,
   (extract_json_trichotomy "\x7boops\x7d").2.1 _ rfl rfl,
   (extract_json_trichotomy "no braces at all").2.2.1 rfl⟩

/-- C3: whenever generation output makes `extract_json` raise (either format
error), `process_field` returns `.ok` with the deterministic fallback record:
field name, index name and data type from the inputs, the stripped raw text
verbatim as description, and the first deduplicated sample (or "" if there
are no samples) as sample value; the error never escapes to the coordinator. -/
theorem process_field_fallback {ε : Type}
    (sampler : String → String → String → Nat → Except ε DiverseTerms)
    (gen : String → Except ε String) (index : String) (fd : FieldDetail)
    (threshold : Nat) (dt : DiverseTerms) (raw : String) (err : ExtractError)
    (hs : sampler index fd.field_name fd.data_type threshold = .ok dt)
    (hg : gen (generate_prompt index fd.field_name fd.data_type
      (combined_samples dt threshold)) = .ok raw)
    (hx : extract_json (pyStrip raw) = .error err)
    (ht : 0 < threshold) :
    process_field sampler gen index fd threshold = .ok (Json.obj (listToObj
      [("field_name", .str fd.field_name),
       ("index_name", .str index),
       ("data_type", .str fd.data_type),
       ("natural_language_description", .str (pyStrip raw)),
       ("sample_value", .str (((dt.frequent_terms ++ dt.rare_terms ++
          dt.significant_terms).dedup).headD ""))])) := by
  simp only [process_field, hs, hg, hx]
  rw [combined_samples, headD_take _ _ _ ht]

/-- Witness for C3: generation output with no braces at all (with surrounding
whitespace, exercising the strip). -/
theorem process_field_fallback_witness :
    process_field
      (fun _ _ _ _ => (.ok ⟨["Male", "Female"], [], ["Male"], 2, []⟩ :
        Except WorkError DiverseTerms))
      (fun _ => .ok "  I cannot answer that.  ")
      "employee_data" (⟨"GenderCode", "keyword"⟩ : FieldDetail) 20
      = .ok (Json.obj (listToObj
        [("field_name", .str "GenderCode"),
         ("index_name", .str "employee_data"),
         ("data_type", .str "keyword"),
         ("natural_language_description",
           .str (pyStrip "  I cannot answer that.  ")),
         ("sample_value", .str ((["Male", "Female"] ++ [] ++
            ["Male"] : List String).dedup.headD ""))])) :=
  process_field_fallback
    (fun _ _ _ _ => (.ok ⟨["Male", "Female"], [], ["Male"], 2, []⟩ :
      Except WorkError DiverseTerms))
    (fun _ => .ok "  I cannot answer that.  ")
    "employee_data" ⟨"GenderCode", "keyword"⟩ 20
    ⟨["Male", "Female"], [], ["Male"], 2, []⟩
    "  I cannot answer that.  " ExtractError.noJsonObject
    rfl rfl rfl (by decide)

/-- C5 counterexample: at field "Division" of type "text" the resolved target
is "Division.keyword", but the query's fifth aggregation (`sample_docs`, a
`top_hits` aggregation) carries no `"field"` key at all, so it is false that
all five aggregations use the resolved target. -/
theorem diverse_terms_sample_docs_no_field :
    (diverse_terms_aggs "Division" "text" 10).length = 5 ∧
    ((diverse_terms_aggs "Division" "text" 10).get ⟨4, by decide⟩).agg_name = "sample_docs" ∧
    ((diverse_terms_aggs "Division" "text" 10).get ⟨4, by decide⟩).agg_field = none ∧
    resolve_agg_field "Division" "text" = "Division.keyword" :=
  ⟨rfl, rfl, rfl, rfl⟩

/-- C5 (amended): the aggregation target resolved by `get_diverse_terms`
equals `field ++ ".keyword"` when the data type is "text" and the field name
unchanged otherwise; the four field-scoped aggregations (frequent, rare,
significant, cardinality) of the single issued query all use this resolved
target, while the fifth (`sample_docs`, a `top_hits` aggregation) references
no field. -/
theorem diverse_terms_field_resolution (field data_type : String) (size : Nat) :
    resolve_agg_field field "text" = field ++ ".keyword" ∧
    (data_type ≠ "text" → resolve_agg_field field data_type = field) ∧
    (∀ a ∈ diverse_terms_aggs field data_type size,
      a.agg_kind ≠ "top_hits" → a.agg_field = some (resolve_agg_field field data_type)) ∧
    (∀ a ∈ diverse_terms_aggs field data_type size,
      a.agg_kind = "top_hits" → a.agg_field = none) := by
  refine ⟨by simp [resolve_agg_field], fun h => by simp [resolve_agg_field, h], ?_, ?_⟩ <;>
    intro a ha hk <;> simp only [diverse_terms_aggs, List.mem_cons, List.not_mem_nil,
      or_false] at ha <;>
    rcases ha with rfl | rfl | rfl | rfl | rfl <;> simp_all [resolve_agg_field]

/-- Witness for C5 (amended) at field "Division" with types "text" and
"keyword". -/
theorem diverse_terms_field_resolution_witness :
    resolve_agg_field "Division" "text" = "Division" ++ ".keyword" ∧
    resolve_agg_field "Division" "keyword" = "Division" ∧
    ((diverse_terms_aggs "Division" "keyword" 10).get ⟨0, by decide⟩).agg_field =
      some (resolve_agg_field "Division" "keyword") ∧
    ((diverse_terms_aggs "Division" "keyword" 10).get ⟨4, by decide⟩).agg_field = none :=
  ⟨(diverse_terms_field_resolution "Division" "keyword" 10).1,
   (diverse_terms_field_resolution "Division" "keyword" 10).2.1 (by decide),
   (diverse_terms_field_resolution "Division" "keyword" 10).2.2.1 _ (by decide) (by decide),
   (diverse_terms_field_resolution "Division" "keyword" 10).2.2.2 _ (by decide) (by decide)⟩

/-- C1: over any index whose fields all process without transport or schema
failure (every unit returns `.ok`), every admissible completion order (a
permutation of the submitted `get_fields` output) makes `process_index`
return exactly one record per field: the collection is the image of the
field list up to permutation, in particular of the same length, with no
field dropped and none duplicated. -/
theorem process_index_one_record_per_field {ε : Type}
    (sampler : String → String → String → Nat → Except ε DiverseTerms)
    (gen : String → Except ε String) (index : String) (threshold : Nat)
    (properties : List (String × Option String)) (order : List FieldDetail)
    (f : FieldDetail → Json)
    (hperm : order.Perm (get_fields properties))
    (hok : ∀ fd ∈ get_fields properties,
      process_field sampler gen index fd threshold = .ok (f fd)) :
    process_index_run order (fun fd => process_field sampler gen index fd threshold)
      = .ok (order.map f) ∧
    (order.map f).Perm ((get_fields properties).map f) ∧
    (order.map f).length = (get_fields properties).length := by
  refine ⟨process_index_run_all_ok _ _ _ fun fd hfd => hok fd (hperm.mem_iff.mp hfd),
    hperm.map f, ?_⟩
  simp [hperm.length_eq]

/-- Witness for C1: two fields, completion order reversed relative to
submission order, a constant sampler and a generator whose output has no
braces (so each unit returns the fallback record). -/
theorem process_index_one_record_per_field_witness :
    process_index_run [⟨"age", "long"⟩, ⟨"name", "text"⟩]
      (fun fd => process_field
        (fun _ _ _ _ => (.ok ⟨["Alice", "Bob"], [], [], 2, []⟩ : Except WorkError DiverseTerms))
        (fun _ => .ok "no json here") "employee_data" fd 20)
      = .ok (([⟨"age", "long"⟩, ⟨"name", "text"⟩] : List FieldDetail).map (fun fd => Json.obj (listToObj
          [("field_name", .str fd.field_name),
           ("index_name", .str "employee_data"),
           ("data_type", .str fd.data_type),
           ("natural_language_description", .str "no json here"),
           ("sample_value", .str "Alice")]))) ∧
    (([⟨"age", "long"⟩, ⟨"name", "text"⟩] : List FieldDetail).map (fun fd => Json.obj (listToObj
          [("field_name", .str fd.field_name),
           ("index_name", .str "employee_data"),
           ("data_type", .str fd.data_type),
           ("natural_language_description", .str "no json here"),
           ("sample_value", .str "Alice")]))).Perm
      ((get_fields [("name", some "text"), ("age", some "long")]).map
        (fun fd => Json.obj (listToObj
          [("field_name", .str fd.field_name),
           ("index_name", .str "employee_data"),
           ("data_type", .str fd.data_type),
           ("natural_language_description", .str "no json here"),
           ("sample_value", .str "Alice")]))) ∧
    (([⟨"age", "long"⟩, ⟨"name", "text"⟩] : List FieldDetail).map (fun fd => Json.obj (listToObj
          [("field_name", .str fd.field_name),
           ("index_name", .str "employee_data"),
           ("data_type", .str fd.data_type),
           ("natural_language_description", .str "no json here"),
           ("sample_value", .str "Alice")]))).length
      = (get_fields [("name", some "text"), ("age", some "long")]).length :=
  process_index_one_record_per_field
    (fun _ _ _ _ => (.ok ⟨["Alice", "Bob"], [], [], 2, []⟩ : Except WorkError DiverseTerms))
    (fun _ => .ok "no json here") "employee_data" 20
    [("name", some "text"), ("age", some "long")]
    ([⟨"age", "long"⟩, ⟨"name", "text"⟩] : List FieldDetail)
    (fun fd => Json.obj (listToObj
      [("field_name", .str fd.field_name),
       ("index_name", .str "employee_data"),
       ("data_type", .str fd.data_type),
       ("natural_language_description", .str "no json here"),
       ("sample_value", .str "Alice")]))
    (by decide) (by intro fd hfd; fin_cases hfd <;> rfl)

/-- C6 counterexample: completion order ["a", "b"], where field "a"'s unit
raises a transport error (`es.search` times out) and field "b"'s unit
succeeds with a fallback record.  `process_index` raises the error instead of
returning a collection containing field "b"'s record, so it is false that
the other fields' results are still produced and returned. -/
theorem process_index_no_per_unit_failure_counterexample :
    process_index_run ([⟨"a", "text"⟩, ⟨"b", "text"⟩] : List FieldDetail)
      (fun fd => process_field
        (fun _ field _ _ =>
          if field = "a" then (.error WorkError.timeout : Except WorkError DiverseTerms)
          else .ok ⟨["v"], [], [], 1, []⟩)
        (fun _ => .ok "no json here") "idx" fd 20)
      = .error WorkError.timeout ∧
    process_field
      (fun _ field _ _ =>
        if field = "a" then (.error WorkError.timeout : Except WorkError DiverseTerms)
        else .ok ⟨["v"], [], [], 1, []⟩)
      (fun _ => .ok "no json here") "idx" (⟨"b", "text"⟩ : FieldDetail) 20
      = .ok (Json.obj (listToObj
          [("field_name", .str "b"), ("index_name", .str "idx"),
           ("data_type", .str "text"),
           ("natural_language_description", .str "no json here"),
           ("sample_value", .str "v")])) :=
  ⟨rfl, rfl⟩

/-- C6 (amended): a transport (or schema) error raised by any unit of work
propagates out of `process_index`: the collection loop aborts at the first
failed future in completion order and the index's already-collected results
are discarded; the failing unit is not retried (the run maps each completed
future to a single `unit` application and ends in the error). -/
theorem process_index_transport_abort {ε : Type}
    (sampler : String → String → String → Nat → Except ε DiverseTerms)
    (gen : String → Except ε String) (index : String) (threshold : Nat)
    (pre post : List FieldDetail) (fd : FieldDetail) (e : ε) (f : FieldDetail → Json)
    (hpre : ∀ x ∈ pre, process_field sampler gen index x threshold = .ok (f x))
    (herr : process_field sampler gen index fd threshold = .error e) :
    process_index_run (pre ++ fd :: post)
      (fun x => process_field sampler gen index x threshold) = .error e := by
  induction pre with
  | nil => simp [process_index_run, herr]
  | cons a pre ih =>
    have h1 : process_field sampler gen index a threshold = .ok (f a) := hpre a (by simp)
    have h2 := ih fun x hx => hpre x (by simp [hx])
    simp [process_index_run, h1, h2]

/-- Witness for C6 (amended): the failing unit completes second. -/
theorem process_index_transport_abort_witness :
    process_index_run (([⟨"b", "text"⟩] : List FieldDetail) ++ (⟨"a", "text"⟩ : FieldDetail) :: [])
      (fun x => process_field
        (fun _ field _ _ =>
          if field = "a" then (.error WorkError.timeout : Except WorkError DiverseTerms)
          else .ok ⟨["v"], [], [], 1, []⟩)
        (fun _ => .ok "no json here") "idx" x 20)
      = .error WorkError.timeout :=
  process_index_transport_abort
    (fun _ field _ _ =>
      if field = "a" then (.error WorkError.timeout : Except WorkError DiverseTerms)
      else .ok ⟨["v"], [], [], 1, []⟩)
    (fun _ => .ok "no json here") "idx" 20
    ([⟨"b", "text"⟩] : List FieldDetail) [] ⟨"a", "text"⟩ WorkError.timeout
    (fun fd => Json.obj (listToObj
      [("field_name", .str fd.field_name), ("index_name", .str "idx"),
       ("data_type", .str fd.data_type),
       ("natural_language_description", .str "no json here"),
       ("sample_value", .str "v")]))
    (by intro x hx; fin_cases hx; rfl) rfl

/-- C7: with the same fields, sampler and generator (all units succeeding),
a pool-size-1 run (whose completion order is the submission order) and a
pool-size-10 run (any admissible completion order) return collections whose
(field_name, index_name) key lists agree up to permutation: the same key
multiset, no key missing and none duplicated in either run relative to the
other. -/
theorem pool_size_one_vs_ten_same_keys {ε : Type}
    (sampler : String → String → String → Nat → Except ε DiverseTerms)
    (gen : String → Except ε String) (index : String) (threshold : Nat)
    (properties : List (String × Option String)) (order1 order10 : List FieldDetail)
    (f : FieldDetail → Json)
    (h1 : admissible_order 1 (get_fields properties) order1)
    (h10 : admissible_order 10 (get_fields properties) order10)
    (hok : ∀ fd ∈ get_fields properties,
      process_field sampler gen index fd threshold = .ok (f fd)) :
    ∃ r1 r10,
      process_index_run order1 (fun fd => process_field sampler gen index fd threshold)
        = .ok r1 ∧
      process_index_run order10 (fun fd => process_field sampler gen index fd threshold)
        = .ok r10 ∧
      (r1.map fun j => (jsonLookup j "field_name", jsonLookup j "index_name")).Perm
        (r10.map fun j => (jsonLookup j "field_name", jsonLookup j "index_name")) := by
  refine ⟨order1.map f, order10.map f,
    process_index_run_all_ok _ _ _ fun fd hfd => hok fd (h1.1.mem_iff.mp hfd),
    process_index_run_all_ok _ _ _ fun fd hfd => hok fd (h10.1.mem_iff.mp hfd), ?_⟩
  have hperm : order1.Perm order10 := h1.1.trans h10.1.symm
  simpa [List.map_map] using
    hperm.map fun fd => (jsonLookup (f fd) "field_name", jsonLookup (f fd) "index_name")

/-- Witness for C7: two fields; the pool-1 order is the submission order, the
pool-10 order is reversed. -/
theorem pool_size_one_vs_ten_same_keys_witness :
    ∃ r1 r10,
      process_index_run (get_fields [("name", some "text"), ("age", some "long")])
        (fun fd => process_field
          (fun _ _ _ _ => (.ok ⟨["Alice"], [], [], 1, []⟩ : Except WorkError DiverseTerms))
          (fun _ => .ok "no json here") "employee_data" fd 20)
        = .ok r1 ∧
      process_index_run ([⟨"age", "long"⟩, ⟨"name", "text"⟩] : List FieldDetail)
        (fun fd => process_field
          (fun _ _ _ _ => (.ok ⟨["Alice"], [], [], 1, []⟩ : Except WorkError DiverseTerms))
          (fun _ => .ok "no json here") "employee_data" fd 20)
        = .ok r10 ∧
      (r1.map fun j => (jsonLookup j "field_name", jsonLookup j "index_name")).Perm
        (r10.map fun j => (jsonLookup j "field_name", jsonLookup j "index_name")) :=
  pool_size_one_vs_ten_same_keys
    (fun _ _ _ _ => (.ok ⟨["Alice"], [], [], 1, []⟩ : Except WorkError DiverseTerms))
    (fun _ => .ok "no json here") "employee_data" 20
    [("name", some "text"), ("age", some "long")]
    (get_fields [("name", some "text"), ("age", some "long")])
    ([⟨"age", "long"⟩, ⟨"name", "text"⟩] : List FieldDetail)
    (fun fd => Json.obj (listToObj
      [("field_name", .str fd.field_name),
       ("index_name", .str "employee_data"),
       ("data_type", .str fd.data_type),
       ("natural_language_description", .str "no json here"),
       ("sample_value", .str "Alice")]))
    ⟨List.Perm.refl _, fun _ => rfl⟩ ⟨by decide, by omega⟩
    (by intro fd hfd; fin_cases hfd <;> rfl)

/-- C8: round-trip identity of extraction over already-minimal JSON object
serializations: for every JSON object, running `extract_json` on its
`json.dumps` serialization returns the object itself (the regex span is the
whole string and the parse inverts the serialization). -/
theorem extract_serialize_roundtrip (o : JsonObj) :
    extract_json (serialize (.obj o)) = .ok (.obj o) := by
  obtain ⟨mid, hmid⟩ := serV_obj_shape o
  unfold extract_json
  rw [show (serialize (Json.obj o)).toList = serV (.obj o) from rfl]
  rw [hmid, braceSpan_wrap, ← hmid]
  simp only [parseJson_serV]

/-- C9: in the all-indices run, (i) the final dictionary is the per-index
result lists concatenated in index-iteration order, and (ii) index
processing is sequential: the execution trace is the concatenation of the
per-index fan-out traces (each admissible by `IsIndexTrace`, its completion
order feeding that index's collection loop), and in it every completion
event of an earlier index precedes every submission event of a later one. -/
theorem generate_metadata_sequential {ε : Type}
    (sampler : String → String → String → Nat → Except ε DiverseTerms)
    (gen : String → Except ε String) (threshold : Nat)
    (indices : List String) (orderOf : String → List FieldDetail)
    (fieldsOf : String → List FieldDetail) (f : String → FieldDetail → Json)
    (traces : List (List PoolEvent))
    (hlen : traces.length = indices.length)
    (htr : ∀ k (hk : k < traces.length),
      IsIndexTrace k (fieldsOf (indices.get ⟨k, hlen ▸ hk⟩)) (traces.get ⟨k, hk⟩))
    (_horder : ∀ k (hk : k < traces.length),
      orderOf (indices.get ⟨k, hlen ▸ hk⟩) = completedFields k (traces.get ⟨k, hk⟩))
    (hok : ∀ idx ∈ indices, ∀ fd ∈ orderOf idx,
      process_field sampler gen idx fd threshold = .ok (f idx fd)) :
    generate_metadata_dictionary_run indices orderOf
        (fun idx fd => process_field sampler gen idx fd threshold)
      = .ok ((indices.map fun idx => (orderOf idx).map (f idx)).flatten) ∧
    ∀ a b, a < b → b < traces.length →
      ∃ t1 t2, traces.flatten = t1 ++ t2 ∧
        (∀ e ∈ t1, e.index ≤ a) ∧ (∀ e ∈ t2, a < e.index) ∧
        (∀ fd, PoolEvent.complete a fd ∈ traces.flatten →
          PoolEvent.complete a fd ∈ t1) ∧
        (∀ fd, PoolEvent.submit b fd ∈ traces.flatten →
          PoolEvent.submit b fd ∈ t2) := by
  have htag : ∀ k (hk : k < traces.length), ∀ e ∈ traces.get ⟨k, hk⟩, e.index = k :=
    fun k hk => (htr k hk).1
  constructor
  · exact generate_run_all_ok indices orderOf _ f hok
  · intro a b hab hb
    refine ⟨(traces.take (a + 1)).flatten, (traces.drop (a + 1)).flatten,
      ?_, ?_, ?_, ?_, ?_⟩
    · rw [← List.flatten_append, List.take_append_drop]
    · intro e he
      have := mem_flatten_take_index traces (a + 1) htag e he
      omega
    · intro e he
      have := mem_flatten_drop_index traces (a + 1) htag e he
      omega
    · intro fd hmem
      rw [← List.take_append_drop (a + 1) traces, List.flatten_append] at hmem
      rcases List.mem_append.mp hmem with h1 | h2
      · exact h1
      · have := mem_flatten_drop_index traces (a + 1) htag _ h2
        simp only [PoolEvent.index] at this
        omega
    · intro fd hmem
      rw [← List.take_append_drop (a + 1) traces, List.flatten_append] at hmem
      rcases List.mem_append.mp hmem with h1 | h2
      · have := mem_flatten_take_index traces (a + 1) htag _ h1
        simp only [PoolEvent.index] at this
        omega
      · exact h2

/-- Witness for C9: two indices with one field each, concrete traces. -/
theorem generate_metadata_sequential_witness :
    generate_metadata_dictionary_run ["a", "b"]
        (fun s => if s = "a" then [(⟨"f1", "text"⟩ : FieldDetail)]
          else [(⟨"f2", "long"⟩ : FieldDetail)])
        (fun idx fd => process_field
          (fun _ _ _ _ => (.ok ⟨["v"], [], [], 1, []⟩ : Except WorkError DiverseTerms))
          (fun _ => .ok "no json here") idx fd 20)
      = .ok (((["a", "b"] : List String).map fun idx =>
          ((if idx = "a" then [(⟨"f1", "text"⟩ : FieldDetail)]
            else [(⟨"f2", "long"⟩ : FieldDetail)]).map
            (fun fd => Json.obj (listToObj
              [("field_name", .str fd.field_name),
               ("index_name", .str idx),
               ("data_type", .str fd.data_type),
               ("natural_language_description", .str "no json here"),
               ("sample_value", .str "v")])))).flatten) ∧
    ∀ a b, a < b →
      b < ([[PoolEvent.submit 0 ⟨"f1", "text"⟩, PoolEvent.complete 0 ⟨"f1", "text"⟩],
            [PoolEvent.submit 1 ⟨"f2", "long"⟩, PoolEvent.complete 1 ⟨"f2", "long"⟩]] :
            List (List PoolEvent)).length →
      ∃ t1 t2,
        ([[PoolEvent.submit 0 ⟨"f1", "text"⟩, PoolEvent.complete 0 ⟨"f1", "text"⟩],
          [PoolEvent.submit 1 ⟨"f2", "long"⟩, PoolEvent.complete 1 ⟨"f2", "long"⟩]] :
          List (List PoolEvent)).flatten = t1 ++ t2 ∧
        (∀ e ∈ t1, e.index ≤ a) ∧ (∀ e ∈ t2, a < e.index) ∧
        (∀ fd, PoolEvent.complete a fd ∈
            ([[PoolEvent.submit 0 ⟨"f1", "text"⟩, PoolEvent.complete 0 ⟨"f1", "text"⟩],
              [PoolEvent.submit 1 ⟨"f2", "long"⟩, PoolEvent.complete 1 ⟨"f2", "long"⟩]] :
              List (List PoolEvent)).flatten →
          PoolEvent.complete a fd ∈ t1) ∧
        (∀ fd, PoolEvent.submit b fd ∈
            ([[PoolEvent.submit 0 ⟨"f1", "text"⟩, PoolEvent.complete 0 ⟨"f1", "text"⟩],
              [PoolEvent.submit 1 ⟨"f2", "long"⟩, PoolEvent.complete 1 ⟨"f2", "long"⟩]] :
              List (List PoolEvent)).flatten →
          PoolEvent.submit b fd ∈ t2) :=
  generate_metadata_sequential
    (fun _ _ _ _ => (.ok ⟨["v"], [], [], 1, []⟩ : Except WorkError DiverseTerms))
    (fun _ => .ok "no json here") 20 ["a", "b"]
    (fun s => if s = "a" then [(⟨"f1", "text"⟩ : FieldDetail)]
      else [(⟨"f2", "long"⟩ : FieldDetail)])
    (fun s => if s = "a" then [(⟨"f1", "text"⟩ : FieldDetail)]
      else [(⟨"f2", "long"⟩ : FieldDetail)])
    (fun idx fd => Json.obj (listToObj
      [("field_name", .str fd.field_name),
       ("index_name", .str idx),
       ("data_type", .str fd.data_type),
       ("natural_language_description", .str "no json here"),
       ("sample_value", .str "v")]))
    [[PoolEvent.submit 0 ⟨"f1", "text"⟩, PoolEvent.complete 0 ⟨"f1", "text"⟩],
     [PoolEvent.submit 1 ⟨"f2", "long"⟩, PoolEvent.complete 1 ⟨"f2", "long"⟩]]
    rfl
    (by
      intro k hk
      have hk2 : k < 2 := by simpa using hk
      interval_cases k
      · exact show IsIndexTrace 0 [(⟨"f1", "text"⟩ : FieldDetail)]
            [PoolEvent.submit 0 ⟨"f1", "text"⟩, PoolEvent.complete 0 ⟨"f1", "text"⟩] from
          ⟨by decide, by decide, by decide⟩
      · exact show IsIndexTrace 1 [(⟨"f2", "long"⟩ : FieldDetail)]
            [PoolEvent.submit 1 ⟨"f2", "long"⟩, PoolEvent.complete 1 ⟨"f2", "long"⟩] from
          ⟨by decide, by decide, by decide⟩)
    (by
      intro k hk
      have hk2 : k < 2 := by simpa using hk
      interval_cases k
      · exact show [(⟨"f1", "text"⟩ : FieldDetail)] = completedFields 0
            [PoolEvent.submit 0 ⟨"f1", "text"⟩, PoolEvent.complete 0 ⟨"f1", "text"⟩] from
          by decide
      · exact show [(⟨"f2", "long"⟩ : FieldDetail)] = completedFields 1
            [PoolEvent.submit 1 ⟨"f2", "long"⟩, PoolEvent.complete 1 ⟨"f2", "long"⟩] from
          by decide)
    (by
      intro idx hidx fd hfd
      fin_cases hidx
      · simp at hfd
        subst hfd
        rfl
      · simp at hfd
        subst hfd
        rfl)

end MetaDict
